import Mathlib

/-!
Shallow embedding of the copper-rs task-graph configuration model
(`copper/src/config.rs`) and of the runtime plan compiler and copper list
manager (`copper/src/curuntime.rs`), together with theorems settling the
specification's claims about them.

Modelling conventions:
* Rust panics (`panic!`, `expect`, `unwrap`, the petgraph `add_edge` bounds
  panic, the `toposort` cycle `expect`) are modelled as `Except.error`
  carrying the panic message: a panic is the abort/failure outcome of the
  operation.
* Machine integers (`i64`, `isize`) are modelled as `Int`; the `i as i32`
  cast in `impl From<Value> for i32` is modelled by `wrapI32`, the
  two's-complement wrap to 32 bits.
* `ron::Value` is restricted to the variants the configuration model
  stores (numbers and strings); the `f64` payload is kept as an inert
  64-bit pattern, since the code only stores and compares it.
* `HashMap<String, Value>` is modelled as an association list read through
  `List.lookup`; no claim depends on hash iteration order.
* `petgraph::stable_graph::StableDiGraph` under the repository's add-only
  usage is modelled as the dense node list in insertion order plus the
  list of edge triples in insertion order.  `edges_directed` walks the
  per-node adjacency chain that `add_edge` prepends to, which is what
  `collectIncident` mirrors.
* `petgraph::algo::toposort` is modelled by a fuel-based source-removal
  sort (`topoAux`): like the library routine it succeeds exactly on
  acyclic graphs and returns a topological order, which is the contract
  `compute_runtime_plan` relies on.
* `uom::si::rational::Time` is an exact rational number of seconds;
  `get::<nanosecond>()` multiplies by `10^9` exactly.
-/

namespace Copper

/-- Two's-complement wrap of an integer to 32 bits: the semantics of the
Rust `i as i32` cast used in `impl From<Value> for i32`. -/
def wrapI32 (i : Int) : Int :=
  (i + 2 ^ 31) % 2 ^ 32 - 2 ^ 31

/-- Inert 64-bit payload of an `f64`; the repository stores and compares
floats but never computes with them. -/
structure F64 where
  bits : Nat
deriving DecidableEq

/-- The `ron::value::Number` variants. -/
inductive RonNumber where
  | integer (i : Int)
  | float (f : F64)
deriving DecidableEq

/-- ron's `Number::as_i64`: the payload when the number is an integer. -/
def RonNumber.as_i64 : RonNumber → Option Int
  | .integer i => some i
  | .float _ => none

/-- ron's `Number::as_f64`: the payload when the number is a float. -/
def RonNumber.as_f64 : RonNumber → Option F64
  | .float f => some f
  | .integer _ => none

/-- The `Value(RonValue)` wrapper of `config.rs`, restricted to the
variants the configuration model stores. -/
inductive Value where
  | number (n : RonNumber)
  | string (s : String)
deriving DecidableEq

/-- Rust `impl From<Value> for i32`; the two `panic!` branches are the
error outcomes. -/
def i32_from_value : Value → Except String Int
  | .number num =>
    match num.as_i64 with
    | some i => .ok (wrapI32 i)
    | none => .error "Expected an integer value"
  | .string _ => .error "Expected a Number variant"

/-- Rust `impl From<Value> for f64`; the two `panic!` branches are the
error outcomes. -/
def f64_from_value : Value → Except String F64
  | .number num =>
    match num.as_f64 with
    | some f => .ok f
    | none => .error "Expected a float value"
  | .string _ => .error "Expected a Number variant"

/-- Rust `impl From<Value> for String`; the `panic!` branch is the error
outcome. -/
def string_from_value : Value → Except String String
  | .string s => .ok s
  | .number _ => .error "Expected a String variant"

/-- `NodeInstanceConfig = HashMap<String, Value>`, as an association list. -/
abbrev NodeInstanceConfig := List (String × Value)

/-- The `Node` struct of `config.rs`. -/
structure Node where
  id : String
  type_ : Option String
  base_period_ns : Option Int
  config : Option NodeInstanceConfig
deriving DecidableEq

/-- `Node::new`. -/
def Node.new (id ptype : String) : Node :=
  ⟨id, some ptype, none, none⟩

/-- `Node::base_period`: the stored nanosecond count as an exact rational
time in seconds (`Time::new::<nanosecond>`). -/
def Node.base_period (n : Node) : Option ℚ :=
  n.base_period_ns.map (fun ns => (ns : ℚ) / 1000000000)

/-- `Node::set_base_period`: the period, an exact rational number of
seconds, is converted to nanoseconds exactly; the `debug_assert_eq!` that
the denominator is 1 is the error outcome. -/
def Node.set_base_period (n : Node) (period : ℚ) : Except String Node :=
  let as_ns : ℚ := period * 1000000000
  if as_ns.den = 1 then .ok { n with base_period_ns := some as_ns.num }
  else .error "assertion failed: denominator of the period is not 1"

/-- The `self.config.as_ref()?.get(key)?` lookup that `get_param` starts
with, shared by the claim statements. -/
def Node.lookup_param (n : Node) (key : String) : Option Value :=
  match n.config with
  | none => none
  | some pc => pc.lookup key

/-- `Node::get_param::<T>`: `conv` is the `T: From<Value>` conversion of
the requested type; the two `?` operators yield `ok none`. -/
def Node.get_param {α : Type} (n : Node) (key : String)
    (conv : Value → Except String α) : Except String (Option α) :=
  match n.config with
  | none => .ok none
  | some pc =>
    match pc.lookup key with
    | none => .ok none
    | some v =>
      match conv v with
      | .ok t => .ok (some t)
      | .error e => .error e

/-- A `cnx` record of the serialized representation. -/
structure Cnx where
  src : String
  dst : String
  msg : String
deriving DecidableEq

/-- The `CuConfigRepresentation` that is actually serialized. -/
structure CuConfigRepresentation where
  tasks : List Node
  cnx : List Cnx
deriving DecidableEq

/-- `CuConfig`: the `StableDiGraph<Node, String, NodeId>` under the
repository's add-only usage — the dense node list in index order and the
edge triples `(source index, target index, message type)` in insertion
order. -/
structure CuConfig where
  nodes : List Node
  edges : List (Nat × Nat × String)
deriving DecidableEq

/-- `CuConfig::default`. -/
def CuConfig.default : CuConfig := ⟨[], []⟩

/-- `CuConfig::add_node`: appends the node and returns its fresh index. -/
def CuConfig.add_node (cfg : CuConfig) (n : Node) : CuConfig × Nat :=
  (⟨cfg.nodes ++ [n], cfg.edges⟩, cfg.nodes.length)

/-- `CuConfig::get_node`. -/
def CuConfig.get_node (cfg : CuConfig) (i : Nat) : Option Node :=
  cfg.nodes[i]?

/-- `CuConfig::connect`: `StableGraph::add_edge` appends the edge, and
panics (the error outcome) when an endpoint is not a node of the graph. -/
def CuConfig.connect (cfg : CuConfig) (src dst : Nat) (msg : String) :
    Except String CuConfig :=
  if src < cfg.nodes.length ∧ dst < cfg.nodes.length then
    .ok ⟨cfg.nodes, cfg.edges ++ [(src, dst, msg)]⟩
  else .error "add_edge: node indices out of bounds"

/-- Walk of an adjacency chain: `add_edge` prepends each new edge to its
endpoint's chain, so scanning the edges in insertion order while
prepending the matching indices reproduces the chain that
`edges_directed` iterates. -/
def collectIncident (sel : Nat × Nat × String → Nat) (v : Nat) :
    List (Nat × Nat × String) → Nat → List Nat → List Nat
  | [], _, acc => acc
  | e :: rest, i, acc =>
    collectIncident sel v rest (i + 1) (if sel e = v then i :: acc else acc)

/-- `CuConfig::get_src_edges`: the indices of the edges whose source is
`v`, in the order `edges_directed(v, Outgoing)` yields them. -/
def CuConfig.get_src_edges (cfg : CuConfig) (v : Nat) : List Nat :=
  collectIncident (fun e => e.1) v cfg.edges 0 []

/-- `CuConfig::get_dst_edges`: the indices of the edges whose target is
`v`, in the order `edges_directed(v, Incoming)` yields them. -/
def CuConfig.get_dst_edges (cfg : CuConfig) (v : Nat) : List Nat :=
  collectIncident (fun e => e.2.1) v cfg.edges 0 []

/-- Modelled from the spec's words for the incident-edge queries: the
incident edge indices as a sequence in edge insertion order, i.e. in
ascending edge index; compared against the source-derived
`get_src_edges`/`get_dst_edges`. -/
def incidentInsertionOrder (sel : Nat × Nat × String → Nat) (v : Nat) :
    List (Nat × Nat × String) → Nat → List Nat
  | [], _ => []
  | e :: rest, i =>
    if sel e = v then i :: incidentInsertionOrder sel v rest (i + 1)
    else incidentInsertionOrder sel v rest (i + 1)

/-- One edge of `Serialize for CuConfig`: the endpoint ids come from
`edge_endpoints(...).unwrap()` (the panic is the error outcome). -/
def CuConfig.edgeToCnx (cfg : CuConfig) (e : Nat × Nat × String) :
    Except String Cnx :=
  match cfg.nodes[e.1]?, cfg.nodes[e.2.1]? with
  | some sn, some dn => .ok ⟨sn.id, dn.id, e.2.2⟩
  | _, _ => .error "edge_endpoints: invalid edge"

/-- The `cnx` vector of `Serialize for CuConfig`, in edge-index order. -/
def CuConfig.edgesToCnx (cfg : CuConfig) :
    List (Nat × Nat × String) → Except String (List Cnx)
  | [] => .ok []
  | e :: rest =>
    match cfg.edgeToCnx e with
    | .error err => .error err
    | .ok c =>
      match cfg.edgesToCnx rest with
      | .error err => .error err
      | .ok cs => .ok (c :: cs)

/-- `impl Serialize for CuConfig`: the tasks are the nodes in index order,
the cnx list the edge triples resolved to node ids in edge-index order. -/
def CuConfig.serialize (cfg : CuConfig) : Except String CuConfigRepresentation :=
  match cfg.edgesToCnx cfg.edges with
  | .error err => .error err
  | .ok cnx => .ok ⟨cfg.nodes, cnx⟩

/-- The `node_indices().find(|i| graph[*i].id == id)` scan: the first node
index whose id matches. -/
def findNodeIndexById (nodes : List Node) (target : String) : Option Nat :=
  match nodes with
  | [] => none
  | n :: rest =>
    if n.id = target then some 0
    else (findNodeIndexById rest target).map (· + 1)

/-- Resolution of one `cnx` record in `Deserialize for CuConfig`; the two
`expect`s are the error outcomes. -/
def CuConfig.resolveCnx (cfg : CuConfig) (c : Cnx) : Except String CuConfig :=
  match findNodeIndexById cfg.nodes c.src with
  | none => .error "Source node not found"
  | some src =>
    match findNodeIndexById cfg.nodes c.dst with
    | none => .error "Destination node not found"
    | some dst => cfg.connect src dst c.msg

/-- The `cnx` loop of `Deserialize for CuConfig`. -/
def CuConfig.applyCnxList (cfg : CuConfig) : List Cnx → Except String CuConfig
  | [] => .ok cfg
  | c :: rest =>
    match cfg.resolveCnx c with
    | .error err => .error err
    | .ok cfg' => cfg'.applyCnxList rest

/-- `impl Deserialize for CuConfig`: add every task in order, then resolve
and connect every cnx record. -/
def CuConfig.deserialize (rep : CuConfigRepresentation) : Except String CuConfig :=
  let base := rep.tasks.foldl (fun cfg t => (cfg.add_node t).1) CuConfig.default
  base.applyCnxList rep.cnx

/-- Serialization followed by deserialization: the round trip of the spec. -/
def CuConfig.roundTrip (cfg : CuConfig) : Except String CuConfig :=
  match cfg.serialize with
  | .error err => .error err
  | .ok rep => CuConfig.deserialize rep

/-- One directed step along some edge of the edge list. -/
def EdgeStep (edges : List (Nat × Nat × String)) (u v : Nat) : Prop :=
  ∃ msg, (u, v, msg) ∈ edges

/-- The edge relation of a configuration graph. -/
def CuConfig.HasEdge (cfg : CuConfig) (u v : Nat) : Prop :=
  EdgeStep cfg.edges u v

/-- Every edge endpoint is a node index: the invariant every graph built
through `add_node`/`connect`/`deserialize` satisfies. -/
def CuConfig.WellFormed (cfg : CuConfig) : Prop :=
  ∀ e ∈ cfg.edges, e.1 < cfg.nodes.length ∧ e.2.1 < cfg.nodes.length

instance (cfg : CuConfig) : Decidable cfg.WellFormed := by
  unfold CuConfig.WellFormed
  infer_instance

/-- Acyclicity: no vertex reaches itself through a nonempty edge path. -/
def CuConfig.Acyclic (cfg : CuConfig) : Prop :=
  ∀ v, ¬ Relation.TransGen cfg.HasEdge v v

/-- Whether some edge enters `v` from a vertex still in `remaining`. -/
def hasIncomingFrom (edges : List (Nat × Nat × String)) (remaining : List Nat)
    (v : Nat) : Bool :=
  edges.any (fun e => e.2.1 = v && remaining.contains e.1)

/-- First remaining vertex with no incoming edge from the remaining set. -/
def pickReady (edges : List (Nat × Nat × String)) (remaining : List Nat) :
    Option Nat :=
  remaining.find? (fun v => !hasIncomingFrom edges remaining v)

/-- Fuel-based source-removal topological sort: repeatedly emit a remaining
vertex with no incoming edge from the remaining set; `none` when no such
vertex exists (a cycle) or the fuel is exhausted. -/
def topoAux (edges : List (Nat × Nat × String)) :
    Nat → List Nat → Option (List Nat)
  | _, [] => some []
  | 0, _ :: _ => none
  | fuel + 1, v0 :: rest =>
    match pickReady edges (v0 :: rest) with
    | none => none
    | some v =>
      match topoAux edges fuel ((v0 :: rest).erase v) with
      | none => none
      | some order => some (v :: order)

/-- `petgraph::algo::toposort` over the configuration graph (see the
module comment for the modelling contract). -/
def CuConfig.toposort (cfg : CuConfig) : Option (List Nat) :=
  topoAux cfg.edges cfg.nodes.length (List.range cfg.nodes.length)

/-- The `(id, node)` pairing loop of `compute_runtime_plan`; the
`get_node(id).unwrap()` panic is the error outcome. -/
def CuConfig.planFromOrder (cfg : CuConfig) :
    List Nat → Except String (List (Nat × Node))
  | [] => .ok []
  | i :: rest =>
    match cfg.get_node i with
    | none => .error "get_node: unknown node"
    | some nd =>
      match cfg.planFromOrder rest with
      | .error err => .error err
      | .ok tl => .ok ((i, nd) :: tl)

/-- `compute_runtime_plan` of `curuntime.rs`: toposort the graph (the
`expect` on a cycle is the error outcome) and pair every sorted index with
its node. -/
def compute_runtime_plan (cfg : CuConfig) : Except String (List (Nat × Node)) :=
  match cfg.toposort with
  | none => .error "Cycle detected in the graph"
  | some order => cfg.planFromOrder order

/-- Modelled from the spec: `CuListsManager<CL, N>` lives in
`copper/src/common.rs`, which is not among the sources; §4.3 of the spec
fixes its contract — fixed capacity `N`, `push` inserts as newest and, at
capacity, evicts and returns the oldest.  Residents are kept oldest
first. -/
structure CuListsManager (α : Type) (N : Nat) where
  resident : List α
deriving DecidableEq

/-- Modelled from the spec: `CuListsManager::new`, the empty store. -/
def CuListsManager.new {α : Type} {N : Nat} : CuListsManager α N := ⟨[]⟩

/-- Modelled from the spec: `push(list) → optional evicted list` inserts as
newest; when `N` entries are already resident it evicts and returns the
oldest. -/
def CuListsManager.push {α : Type} {N : Nat} (m : CuListsManager α N) (x : α) :
    CuListsManager α N × Option α :=
  if m.resident.length < N then (⟨m.resident ++ [x]⟩, none)
  else (⟨m.resident.tail ++ [x]⟩, m.resident.head?)

/-- Push of each element of a sequence in order. -/
def CuListsManager.pushSeq {α : Type} {N : Nat} (m : CuListsManager α N) :
    List α → CuListsManager α N
  | [] => m
  | x :: rest => ((m.push x).1).pushSeq rest

/-- Push of a whole sequence, oldest first, starting from the empty
manager. -/
def CuListsManager.pushAll {α : Type} (N : Nat) (xs : List α) :
    CuListsManager α N :=
  CuListsManager.new.pushSeq xs

/-- Capacity the runtime instantiates: `CuRuntime` owns a
`CuListsManager<CL, 10>`. -/
def runtimeCopperListCapacity : Nat := 10

/-- Two-node chain `a → b`, the shape of `test_plain_serialize`. -/
def cfgChain : CuConfig :=
  ⟨[Node.new "test1" "package::Plugin1", Node.new "test2" "package::Plugin2"],
   [(0, 1, "msgpkg::MsgType")]⟩

/-- Two-node cycle `a → b → a`. -/
def cfgCyc : CuConfig :=
  ⟨[Node.new "a" "TestSource", Node.new "b" "TestSink"],
   [(0, 1, "msg"), (1, 0, "msg")]⟩

/-- Two nodes sharing the id `"a"`, with an edge out of the second one. -/
def cfgDup : CuConfig :=
  ⟨[Node.new "a" "package::Plugin1", Node.new "a" "package::Plugin2"],
   [(1, 0, "msgpkg::MsgType")]⟩

/-- Fan-out: two edges added out of node 0, in the order `(0,1)` then
`(0,2)`. -/
def cfgFan : CuConfig :=
  ⟨[Node.new "a" "T", Node.new "b" "T", Node.new "c" "T"],
   [(0, 1, "m1"), (0, 2, "m2")]⟩

/-- A node holding one integer and one string parameter. -/
def nodeParams : Node :=
  ⟨"copper-camera", some "camerapkg::Camera", none,
   some [("resolution-height", .number (.integer 1080)),
         ("label", .string "front")]⟩

/-- A representation whose single connection references an id that is not
among the declared tasks. -/
def repGhost : CuConfigRepresentation :=
  ⟨[Node.new "a" "TestSource"], [⟨"a", "ghost", "msg"⟩]⟩

/-- Reading `get_param` through the `lookup_param` accessor. -/
theorem get_param_eq_lookup {α : Type} (n : Node) (key : String)
    (conv : Value → Except String α) :
    n.get_param key conv =
      match n.lookup_param key with
      | none => .ok none
      | some v =>
        match conv v with
        | .ok t => .ok (some t)
        | .error e => .error e := by
  unfold Node.get_param Node.lookup_param
  cases n.config with
  | none => rfl
  | some pc => cases pc.lookup key <;> rfl

/-- The adjacency-chain walk is the reverse of the insertion-order filter. -/
theorem collectIncident_eq_reverse (sel : Nat × Nat × String → Nat) (v : Nat) :
    ∀ (l : List (Nat × Nat × String)) (i : Nat) (acc : List Nat),
      collectIncident sel v l i acc =
        (incidentInsertionOrder sel v l i).reverse ++ acc := by
  intro l
  induction l with
  | nil => intro i acc; rfl
  | cons e rest ih =>
    intro i acc
    by_cases h : sel e = v
    · simp [collectIncident, incidentInsertionOrder, h, ih]
    · simp [collectIncident, incidentInsertionOrder, h, ih]

/-- C10: for every node and key, `get_param` returns `None` (not an error)
both when the node has no instance-configuration map and when the key is
absent from the map; a present value goes through the requested
conversion, so absence (`ok none`) stays distinct from a type mismatch
(`error`). -/
theorem c10_get_param_absence {α : Type} (conv : Value → Except String α)
    (n : Node) (key : String) :
    (n.lookup_param key = none → n.get_param key conv = .ok none) ∧
    (∀ v, n.lookup_param key = some v →
      (∀ t, conv v = .ok t → n.get_param key conv = .ok (some t)) ∧
      (∀ e, conv v = .error e → n.get_param key conv = .error e)) := by
  refine ⟨fun h => ?_, fun v hv => ⟨fun t ht => ?_, fun e he => ?_⟩⟩
  · rw [get_param_eq_lookup, h]
  · rw [get_param_eq_lookup, hv]; simp only [ht]
  · rw [get_param_eq_lookup, hv]; simp only [he]

/-- Witness for C10 at concrete nodes: a node with no config map at all
and a node whose map lacks the key both read as `ok none`. -/
theorem c10_get_param_absence_witness :
    (Node.new "x" "pkg::T").get_param "k" i32_from_value = .ok none ∧
    nodeParams.get_param "missing" i32_from_value = .ok none :=
  ⟨(c10_get_param_absence i32_from_value (Node.new "x" "pkg::T") "k").1 rfl,
   (c10_get_param_absence i32_from_value nodeParams "missing").1 rfl⟩

/-- C5: a stored value read under an incompatible type fails with the
conversion panic (the `ParamTypeMismatch` condition of the spec's
taxonomy): a string read as `i32` or `f64` fails, a number read as
`String` fails, and a float read as `i32` fails — never a silently wrong
value. -/
theorem c5_param_type_mismatch (n : Node) (key : String) (v : Value)
    (h : n.lookup_param key = some v) :
    (∀ s, v = .string s →
      n.get_param key i32_from_value = .error "Expected a Number variant" ∧
      n.get_param key f64_from_value = .error "Expected a Number variant") ∧
    (∀ num, v = .number num →
      n.get_param key string_from_value = .error "Expected a String variant") ∧
    (∀ f, v = .number (.float f) →
      n.get_param key i32_from_value = .error "Expected an integer value") := by
  refine ⟨?_, ?_, ?_⟩
  · rintro s rfl
    exact ⟨by rw [get_param_eq_lookup, h]; rfl, by rw [get_param_eq_lookup, h]; rfl⟩
  · rintro num rfl
    rw [get_param_eq_lookup, h]; rfl
  · rintro f rfl
    rw [get_param_eq_lookup, h]; rfl

/-- Witness for C5: the string parameter of `nodeParams` read as an
integer fails, and its integer parameter read as a string fails. -/
theorem c5_param_type_mismatch_witness :
    nodeParams.get_param "label" i32_from_value =
      .error "Expected a Number variant" ∧
    nodeParams.get_param "resolution-height" string_from_value =
      .error "Expected a String variant" :=
  ⟨((c5_param_type_mismatch nodeParams "label" (.string "front") rfl).1
      "front" rfl).1,
   (c5_param_type_mismatch nodeParams "resolution-height"
      (.number (.integer 1080)) rfl).2.1 (.integer 1080) rfl⟩

/-- C7: `connect` fails (the `InvalidNodeReference` condition — realized
as the `add_edge` bounds panic) exactly when one of the indices is not a
node of the graph; on valid indices it appends the edge triple. -/
theorem c7_connect_invalid_reference (cfg : CuConfig) (src dst : Nat)
    (msg : String) :
    (¬(src < cfg.nodes.length ∧ dst < cfg.nodes.length) →
      cfg.connect src dst msg = .error "add_edge: node indices out of bounds") ∧
    ((src < cfg.nodes.length ∧ dst < cfg.nodes.length) →
      cfg.connect src dst msg = .ok ⟨cfg.nodes, cfg.edges ++ [(src, dst, msg)]⟩) := by
  refine ⟨fun h => ?_, fun h => ?_⟩
  · unfold CuConfig.connect; rw [if_neg h]
  · unfold CuConfig.connect; rw [if_pos h]

/-- Witness for C7: connecting in the empty graph fails; connecting two
existing nodes of `cfgChain` succeeds. -/
theorem c7_connect_invalid_reference_witness :
    CuConfig.default.connect 0 1 "msg" =
      .error "add_edge: node indices out of bounds" ∧
    cfgChain.connect 0 1 "m2" =
      .ok ⟨cfgChain.nodes, cfgChain.edges ++ [(0, 1, "m2")]⟩ :=
  ⟨(c7_connect_invalid_reference CuConfig.default 0 1 "msg").1 (by decide),
   (c7_connect_invalid_reference cfgChain 0 1 "m2").2 (by decide)⟩

/-- C8 counterexample: on `cfgFan` the two edges out of node 0 were
inserted as indices 0 then 1, but `get_src_edges` yields `[1, 0]` — the
reverse of insertion order, so the claim's insertion-order sequence is not
what the query returns. -/
theorem c8_insertion_order_counterexample :
    cfgFan.get_src_edges 0 = [1, 0] ∧
    incidentInsertionOrder (fun e => e.1) 0 cfgFan.edges 0 = [0, 1] ∧
    cfgFan.get_src_edges 0 ≠ incidentInsertionOrder (fun e => e.1) 0 cfgFan.edges 0 :=
  ⟨rfl, rfl, by decide⟩

/-- C8 amended: the outgoing- and incoming-edge queries return the edge
indices incident to the node as a deterministic ordered sequence in
reverse edge-insertion order (newest edge first). -/
theorem c8_incident_edges_reverse_insertion (cfg : CuConfig) (v : Nat) :
    cfg.get_src_edges v =
      (incidentInsertionOrder (fun e => e.1) v cfg.edges 0).reverse ∧
    cfg.get_dst_edges v =
      (incidentInsertionOrder (fun e => e.2.1) v cfg.edges 0).reverse := by
  constructor <;>
    simp [CuConfig.get_src_edges, CuConfig.get_dst_edges, collectIncident_eq_reverse]

/-- Resident content after a sequence of pushes into a manager whose
resident count respects the capacity: the tail end of the combined
sequence that fits. -/
theorem pushSeq_resident {α : Type} {N : Nat} (hN : 0 < N) :
    ∀ (xs : List α) (m : CuListsManager α N), m.resident.length ≤ N →
      (m.pushSeq xs).resident =
        (m.resident ++ xs).drop (m.resident.length + xs.length - N) := by
  intro xs
  induction xs with
  | nil =>
    intro m hm
    have h0 : m.resident.length - N = 0 := by omega
    simp [CuListsManager.pushSeq, h0]
  | cons x rest ih =>
    intro m hm
    rw [show m.pushSeq (x :: rest) = ((m.push x).1).pushSeq rest from rfl]
    by_cases h : m.resident.length < N
    · have hpush : (m.push x).1 = (⟨m.resident ++ [x]⟩ : CuListsManager α N) := by
        simp [CuListsManager.push, h]
      rw [hpush, ih ⟨m.resident ++ [x]⟩ (by simp; omega)]
      show ((m.resident ++ [x]) ++ rest).drop
          ((m.resident ++ [x]).length + rest.length - N) = _
      rw [show (m.resident ++ [x]) ++ rest = m.resident ++ x :: rest by simp]
      congr 1
      simp
      omega
    · have hlen : m.resident.length = N := by omega
      obtain ⟨hd, tl, hres⟩ : ∃ hd tl, m.resident = hd :: tl := by
        cases hres : m.resident with
        | nil => rw [hres] at hlen; simp at hlen; omega
        | cons hd tl => exact ⟨hd, tl, rfl⟩
      have hlN : tl.length + 1 = N := by
        rw [hres] at hlen; simpa using hlen
      have hpush : (m.push x).1 = (⟨m.resident.tail ++ [x]⟩ : CuListsManager α N) := by
        simp [CuListsManager.push, h]
      have htl : ((⟨m.resident.tail ++ [x]⟩ : CuListsManager α N)).resident.length ≤ N := by
        rw [hres]; simp; omega
      rw [hpush, ih _ htl]
      show ((m.resident.tail ++ [x]) ++ rest).drop
          ((m.resident.tail ++ [x]).length + rest.length - N) = _
      rw [hres]
      show ((tl ++ [x]) ++ rest).drop ((tl ++ [x]).length + rest.length - N) = _
      have e1 : (tl ++ [x]).length + rest.length - N = rest.length := by
        simp; omega
      have e2 : (hd :: tl).length + (x :: rest).length - N = rest.length + 1 := by
        simp; omega
      rw [e1, e2]
      rw [show (tl ++ [x]) ++ rest = tl ++ x :: rest by simp]
      rw [show (hd :: tl) ++ x :: rest = hd :: (tl ++ x :: rest) by simp]
      rw [List.drop_succ_cons]

/-- C4: for every sequence of pushes into a manager of capacity `N > 0`
(`N = 10` in the runtime), the resident count never exceeds `N`; a push
into a manager already holding `N` entries returns exactly the oldest
entry and shifts it out; and after the pushes the residents are exactly
the last `N` pushed, in push order. -/
theorem c4_manager_bound {α : Type} (N : Nat) (hN : 0 < N) :
    (∀ xs : List α, (CuListsManager.pushAll N xs).resident.length ≤ N) ∧
    (∀ (m : CuListsManager α N) (x : α), m.resident.length = N →
      (m.push x).2 = m.resident.head? ∧
      (m.push x).1.resident = m.resident.tail ++ [x]) ∧
    (∀ xs : List α, (CuListsManager.pushAll N xs).resident =
      xs.drop (xs.length - N)) := by
  have hall : ∀ xs : List α,
      (CuListsManager.pushAll N xs).resident = xs.drop (xs.length - N) := by
    intro xs
    have := pushSeq_resident hN xs CuListsManager.new (by simp [CuListsManager.new])
    simpa [CuListsManager.pushAll, CuListsManager.new] using this
  refine ⟨?_, ?_, hall⟩
  · intro xs
    rw [hall]
    simp
    omega
  · intro m x hm
    have h : ¬ m.resident.length < N := by omega
    constructor <;> simp [CuListsManager.push, h]

/-- Witness for C4 at the runtime's capacity 10. -/
theorem c4_manager_bound_witness :
    0 < runtimeCopperListCapacity ∧
    ((∀ xs : List Nat,
        (CuListsManager.pushAll runtimeCopperListCapacity xs).resident.length ≤
          runtimeCopperListCapacity) ∧
     (∀ (m : CuListsManager Nat runtimeCopperListCapacity) (x : Nat),
        m.resident.length = runtimeCopperListCapacity →
        (m.push x).2 = m.resident.head? ∧
        (m.push x).1.resident = m.resident.tail ++ [x]) ∧
     (∀ xs : List Nat,
        (CuListsManager.pushAll runtimeCopperListCapacity xs).resident =
          xs.drop (xs.length - runtimeCopperListCapacity))) :=
  ⟨by decide, c4_manager_bound runtimeCopperListCapacity (by decide)⟩

/-- C9: a base period of 60 seconds is stored as exactly 60,000,000,000
nanoseconds, and a configuration holding that node round-trips unchanged
through serialization and deserialization. -/
theorem c9_base_period_sixty_seconds :
    ∃ camera : Node,
      (Node.new "copper-camera" "camerapkg::Camera").set_base_period 60 = .ok camera ∧
      camera.base_period_ns = some 60000000000 ∧
      CuConfig.roundTrip ⟨[camera], []⟩ = .ok ⟨[camera], []⟩ := by
  refine ⟨⟨"copper-camera", some "camerapkg::Camera", some 60000000000, none⟩,
    ?_, rfl, rfl⟩
  have hd : ((60 : ℚ) * 1000000000).den = 1 := by norm_num
  have hn : ((60 : ℚ) * 1000000000).num = 60000000000 := by norm_num
  simp only [Node.set_base_period]
  rw [if_pos hd, hn]
  rfl

/-- Search failure of the node-id scan is exactly the absence of the id. -/
theorem findNodeIndexById_eq_none (nodes : List Node) (target : String) :
    findNodeIndexById nodes target = none ↔ ∀ n ∈ nodes, n.id ≠ target := by
  induction nodes with
  | nil => simp [findNodeIndexById]
  | cons a rest ih =>
    by_cases h : a.id = target
    · simp [findNodeIndexById, h]
    · simp [findNodeIndexById, h, ih]

/-- A successful `connect` never changes the node list. -/
theorem connect_nodes (cfg : CuConfig) (s d : Nat) (msg : String)
    (cfg' : CuConfig) : cfg.connect s d msg = .ok cfg' → cfg'.nodes = cfg.nodes := by
  unfold CuConfig.connect
  by_cases hb : s < cfg.nodes.length ∧ d < cfg.nodes.length
  · rw [if_pos hb]
    intro h
    injection h with h'
    rw [← h']
  · rw [if_neg hb]
    exact fun h => Except.noConfusion h

/-- Resolving a connection never changes the node list. -/
theorem resolveCnx_nodes (cfg : CuConfig) (c : Cnx) (cfg' : CuConfig) :
    cfg.resolveCnx c = .ok cfg' → cfg'.nodes = cfg.nodes := by
  unfold CuConfig.resolveCnx
  cases h1 : findNodeIndexById cfg.nodes c.src with
  | none => exact fun h => Except.noConfusion h
  | some s =>
    cases h2 : findNodeIndexById cfg.nodes c.dst with
    | none => exact fun h => Except.noConfusion h
    | some d => exact connect_nodes cfg s d c.msg cfg'

/-- A connection list containing an unresolvable record makes the
connection loop fail, whatever edges were already accumulated. -/
theorem applyCnxList_error (tasks : List Node) :
    ∀ (l : List Cnx) (cfg : CuConfig), cfg.nodes = tasks →
      (∃ c ∈ l, findNodeIndexById tasks c.src = none ∨
                findNodeIndexById tasks c.dst = none) →
      ∃ err, cfg.applyCnxList l = .error err := by
  intro l
  induction l with
  | nil =>
    rintro cfg hnodes ⟨c, hc, hbad⟩
    simp at hc
  | cons c' rest ih =>
    rintro cfg hnodes ⟨c, hc, hbad⟩
    rw [show cfg.applyCnxList (c' :: rest) =
        (match cfg.resolveCnx c' with
         | .error err => .error err
         | .ok cfg' => cfg'.applyCnxList rest) from rfl]
    cases hres : cfg.resolveCnx c' with
    | error err => exact ⟨err, rfl⟩
    | ok cfg'' =>
      rcases List.mem_cons.mp hc with rfl | hmem
      · exfalso
        unfold CuConfig.resolveCnx at hres
        rw [hnodes] at hres
        rcases hbad with hb | hb
        · rw [hb] at hres
          exact Except.noConfusion hres
        · cases hfs : findNodeIndexById tasks c.src with
          | none => rw [hfs] at hres; exact Except.noConfusion hres
          | some s => rw [hfs, hb] at hres; exact Except.noConfusion hres
      · have hn : cfg''.nodes = tasks := by
          rw [resolveCnx_nodes cfg c' cfg'' hres, hnodes]
        exact ih cfg'' hn ⟨c, hmem, hbad⟩

/-- Adding all tasks in order appends them to the node list and leaves the
edges alone. -/
theorem foldl_add_node : ∀ (ts : List Node) (cfg : CuConfig),
    ts.foldl (fun cfg t => (cfg.add_node t).1) cfg = ⟨cfg.nodes ++ ts, cfg.edges⟩ := by
  intro ts
  induction ts with
  | nil => intro cfg; simp
  | cons t rest ih =>
    intro cfg
    rw [List.foldl_cons, ih]
    simp [CuConfig.add_node]

/-- C6: deserialization fails whenever some connection record references a
source or destination id absent from the declared tasks (the
`UnresolvedNodeReference` condition, realized as the
`Source node not found` / `Destination node not found` aborts). -/
theorem c6_unresolved_node_reference (rep : CuConfigRepresentation) (c : Cnx)
    (hc : c ∈ rep.cnx)
    (habs : (∀ t ∈ rep.tasks, t.id ≠ c.src) ∨ (∀ t ∈ rep.tasks, t.id ≠ c.dst)) :
    ∃ err, CuConfig.deserialize rep = .error err := by
  unfold CuConfig.deserialize
  rw [foldl_add_node]
  apply applyCnxList_error rep.tasks rep.cnx _ (by simp [CuConfig.default])
  refine ⟨c, hc, ?_⟩
  rcases habs with h | h
  · exact Or.inl ((findNodeIndexById_eq_none rep.tasks c.src).mpr h)
  · exact Or.inr ((findNodeIndexById_eq_none rep.tasks c.dst).mpr h)

/-- Witness for C6: `repGhost` declares one task `"a"` but connects it to
the undeclared id `"ghost"`; deserialization fails. -/
theorem c6_unresolved_node_reference_witness :
    (⟨"a", "ghost", "msg"⟩ : Cnx) ∈ repGhost.cnx ∧
    ∃ err, CuConfig.deserialize repGhost = .error err :=
  ⟨by decide,
   c6_unresolved_node_reference repGhost ⟨"a", "ghost", "msg"⟩ (by decide)
     (Or.inr (by decide))⟩

/-- With pairwise-distinct ids, the id scan finds a node back at its own
index. -/
theorem findNodeIndexById_self (nodes : List Node)
    (hids : (nodes.map Node.id).Nodup) :
    ∀ (u : Nat) (n : Node), nodes[u]? = some n →
      findNodeIndexById nodes n.id = some u := by
  induction nodes with
  | nil => intro u n h; simp at h
  | cons a rest ih =>
    intro u n h
    rw [List.map_cons, List.nodup_cons] at hids
    cases u with
    | zero =>
      rw [List.getElem?_cons_zero] at h
      injection h with h
      subst h
      simp [findNodeIndexById]
    | succ u =>
      rw [List.getElem?_cons_succ] at h
      have hmemn : n ∈ rest := by
        have : rest[u]?.isSome := by rw [h]; rfl
        exact List.getElem?_mem h
      have hna : ¬ a.id = n.id := by
        intro heq
        exact hids.1 (heq ▸ List.mem_map_of_mem Node.id hmemn)
      simp only [findNodeIndexById, if_neg hna]
      rw [ih hids.2 u n h]
      rfl

/-- Serializing then re-resolving an edge list: with well-formed edges and
distinct ids every edge serializes to a cnx record that resolves back to
exactly the original triple, whatever edges were already accumulated. -/
theorem roundtrip_cnx (cfg : CuConfig) (hids : (cfg.nodes.map Node.id).Nodup) :
    ∀ (l : List (Nat × Nat × String)),
      (∀ e ∈ l, e.1 < cfg.nodes.length ∧ e.2.1 < cfg.nodes.length) →
      ∃ cnxl, cfg.edgesToCnx l = .ok cnxl ∧
        ∀ cfg' : CuConfig, cfg'.nodes = cfg.nodes →
          cfg'.applyCnxList cnxl = .ok ⟨cfg.nodes, cfg'.edges ++ l⟩ := by
  intro l
  induction l with
  | nil =>
    intro _
    refine ⟨[], rfl, fun cfg' hn => ?_⟩
    obtain ⟨ns', es'⟩ := cfg'
    simp only at hn
    subst hn
    simp [CuConfig.applyCnxList]
  | cons e rest ih =>
    intro hb
    obtain ⟨u, vd, msg⟩ := e
    obtain ⟨hu, hv⟩ := hb (u, vd, msg) (List.mem_cons_self _ _)
    obtain ⟨sn, hsn⟩ : ∃ sn, cfg.nodes[u]? = some sn :=
      ⟨cfg.nodes[u], List.getElem?_eq_getElem hu⟩
    obtain ⟨dn, hdn⟩ : ∃ dn, cfg.nodes[vd]? = some dn :=
      ⟨cfg.nodes[vd], List.getElem?_eq_getElem hv⟩
    obtain ⟨cnxr, hser, happ⟩ := ih (fun e he => hb e (List.mem_cons_of_mem _ he))
    refine ⟨⟨sn.id, dn.id, msg⟩ :: cnxr, ?_, ?_⟩
    · have hcnx : cfg.edgeToCnx (u, vd, msg) = .ok ⟨sn.id, dn.id, msg⟩ := by
        unfold CuConfig.edgeToCnx
        rw [show (u, vd, msg).1 = u from rfl, show (u, vd, msg).2.1 = vd from rfl,
          hsn, hdn]
      rw [show cfg.edgesToCnx ((u, vd, msg) :: rest) =
          (match cfg.edgeToCnx (u, vd, msg) with
           | .error err => .error err
           | .ok c =>
             match cfg.edgesToCnx rest with
             | .error err => .error err
             | .ok cs => .ok (c :: cs)) from rfl]
      rw [hcnx, hser]
    · intro cfg' hn
      have hres : cfg'.resolveCnx ⟨sn.id, dn.id, msg⟩ =
          .ok ⟨cfg.nodes, cfg'.edges ++ [(u, vd, msg)]⟩ := by
        unfold CuConfig.resolveCnx CuConfig.connect
        rw [hn]
        rw [findNodeIndexById_self cfg.nodes hids u sn hsn,
          findNodeIndexById_self cfg.nodes hids vd dn hdn]
        show (if u < cfg.nodes.length ∧ vd < cfg.nodes.length then _ else _) = _
        rw [if_pos ⟨hu, hv⟩]
      rw [show cfg'.applyCnxList (⟨sn.id, dn.id, msg⟩ :: cnxr) =
          (match cfg'.resolveCnx ⟨sn.id, dn.id, msg⟩ with
           | .error err => .error err
           | .ok c2 => c2.applyCnxList cnxr) from rfl]
      rw [hres]
      show CuConfig.applyCnxList ⟨cfg.nodes, cfg'.edges ++ [(u, vd, msg)]⟩ cnxr = _
      rw [happ ⟨cfg.nodes, cfg'.edges ++ [(u, vd, msg)]⟩ rfl]
      simp

/-- C1 counterexample: `cfgDup` has two nodes that share the id `"a"` and
an edge out of node 1; deserialize∘serialize remaps that edge to source 0
(resolution by first matching id), so the edge triples are not preserved
and the result is not isomorphic to the input. -/
theorem c1_round_trip_counterexample :
    CuConfig.roundTrip cfgDup = .ok ⟨cfgDup.nodes, [(0, 0, "msgpkg::MsgType")]⟩ ∧
    cfgDup.edges ≠ [(0, 0, "msgpkg::MsgType")] :=
  ⟨rfl, by decide⟩

/-- C1 amended: for every constructed graph whose node ids are pairwise
distinct (the data model's id-uniqueness assumption, which nothing
enforces at construction time), `deserialize (serialize G)` succeeds and
returns G itself — same node list in order, same edge triples in order. -/
theorem c1_round_trip (cfg : CuConfig) (hwf : cfg.WellFormed)
    (hids : (cfg.nodes.map Node.id).Nodup) :
    cfg.roundTrip = .ok cfg := by
  obtain ⟨ns, es⟩ := cfg
  obtain ⟨cnxl, hser, happ⟩ := roundtrip_cnx ⟨ns, es⟩ hids es hwf
  have hserialize : CuConfig.serialize ⟨ns, es⟩ = .ok ⟨ns, cnxl⟩ := by
    unfold CuConfig.serialize
    rw [hser]
  unfold CuConfig.roundTrip
  rw [hserialize]
  show CuConfig.deserialize ⟨ns, cnxl⟩ = _
  unfold CuConfig.deserialize
  rw [foldl_add_node]
  have := happ ⟨[] ++ ns, []⟩ (by simp)
  simp only [CuConfig.default]
  rw [this]
  simp

/-- Witness for C1: the two-node chain with distinct ids round-trips to
itself. -/
theorem c1_round_trip_witness :
    cfgChain.WellFormed ∧ (cfgChain.nodes.map Node.id).Nodup ∧
    CuConfig.roundTrip cfgChain = .ok cfgChain :=
  ⟨by decide, by decide, c1_round_trip cfgChain (by decide) (by decide)⟩

/-- The vertex picked by `pickReady` is among the remaining vertices. -/
theorem pickReady_mem (edges : List (Nat × Nat × String)) (rem : List Nat)
    (v : Nat) : pickReady edges rem = some v → v ∈ rem :=
  fun h => List.mem_of_find?_eq_some h

/-- The vertex picked by `pickReady` has no incoming edge from the
remaining set. -/
theorem pickReady_noIncoming (edges : List (Nat × Nat × String))
    (rem : List Nat) (v : Nat) (h : pickReady edges rem = some v) :
    ∀ e ∈ edges, e.2.1 = v → e.1 ∉ rem := by
  have hp := List.find?_some h
  have hfalse : hasIncomingFrom edges rem v = false := by
    cases hh : hasIncomingFrom edges rem v with
    | false => rfl
    | true => rw [hh] at hp; simp at hp
  intro e he hdst hmem
  unfold hasIncomingFrom at hfalse
  rw [List.any_eq_false] at hfalse
  exact hfalse e he (by simp [hdst, hmem])

/-- When no vertex is ready, every remaining vertex has an incoming edge
from the remaining set. -/
theorem pickReady_none (edges : List (Nat × Nat × String)) (rem : List Nat)
    (h : pickReady edges rem = none) :
    ∀ v ∈ rem, ∃ u, u ∈ rem ∧ EdgeStep edges u v := by
  intro v hv
  have hne := List.find?_eq_none.mp h v hv
  have htrue : hasIncomingFrom edges rem v = true := by
    cases hh : hasIncomingFrom edges rem v with
    | true => rfl
    | false => rw [hh] at hne; simp at hne
  unfold hasIncomingFrom at htrue
  rw [List.any_eq_true] at htrue
  obtain ⟨e, he, hp⟩ := htrue
  obtain ⟨eu, evd, emsg⟩ := e
  simp at hp
  obtain ⟨hdst, hsrc⟩ := hp
  subst hdst
  exact ⟨eu, hsrc, emsg, he⟩

/-- Unfolding of `topoAux` on an empty remaining set. -/
theorem topoAux_nil (edges : List (Nat × Nat × String)) (fuel : Nat) :
    topoAux edges fuel [] = some [] := by
  cases fuel <;> rfl

/-- Unfolding of `topoAux` when the ready scan fails. -/
theorem topoAux_cons_none (edges : List (Nat × Nat × String)) (fuel r0 : Nat)
    (rrest : List Nat) (hp : pickReady edges (r0 :: rrest) = none) :
    topoAux edges (fuel + 1) (r0 :: rrest) = none := by
  show (match pickReady edges (r0 :: rrest) with
        | none => none
        | some v =>
          match topoAux edges fuel ((r0 :: rrest).erase v) with
          | none => none
          | some order => some (v :: order)) = none
  rw [hp]

/-- Unfolding of `topoAux` when the ready scan picks a vertex. -/
theorem topoAux_cons_some (edges : List (Nat × Nat × String)) (fuel r0 : Nat)
    (rrest : List Nat) (v : Nat)
    (hp : pickReady edges (r0 :: rrest) = some v) :
    topoAux edges (fuel + 1) (r0 :: rrest) =
      match topoAux edges fuel ((r0 :: rrest).erase v) with
      | none => none
      | some order => some (v :: order) := by
  show (match pickReady edges (r0 :: rrest) with
        | none => none
        | some v =>
          match topoAux edges fuel ((r0 :: rrest).erase v) with
          | none => none
          | some order => some (v :: order)) = _
  rw [hp]

/-- A successful run of `topoAux` emits a permutation of the remaining
vertices. -/
theorem topoAux_perm (edges : List (Nat × Nat × String)) :
    ∀ (fuel : Nat) (rem : List Nat) (order : List Nat),
      topoAux edges fuel rem = some order → order.Perm rem := by
  intro fuel
  induction fuel with
  | zero =>
    intro rem order h
    cases rem with
    | nil =>
      rw [topoAux_nil] at h
      injection h with h
      subst h
      exact List.Perm.refl []
    | cons a b =>
      rw [show topoAux edges 0 (a :: b) = none from rfl] at h
      exact absurd h (by simp)
  | succ fuel ih =>
    intro rem order h
    cases rem with
    | nil =>
      rw [topoAux_nil] at h
      injection h with h
      subst h
      exact List.Perm.refl []
    | cons r0 rrest =>
      cases hp : pickReady edges (r0 :: rrest) with
      | none =>
        rw [topoAux_cons_none edges fuel r0 rrest hp] at h
        exact absurd h (by simp)
      | some v =>
        rw [topoAux_cons_some edges fuel r0 rrest v hp] at h
        cases ht : topoAux edges fuel ((r0 :: rrest).erase v) with
        | none => rw [ht] at h; exact absurd h (by simp)
        | some rest' =>
          rw [ht] at h
          have h' : some (v :: rest') = some order := h
          injection h' with h'
          subst h'
          have hv : v ∈ r0 :: rrest := pickReady_mem edges _ v hp
          exact ((ih _ rest' ht).cons v).trans (List.perm_cons_erase hv).symm

/-- A successful run of `topoAux` puts the source of every edge whose two
endpoints are among the remaining vertices strictly before its target. -/
theorem topoAux_respects (edges : List (Nat × Nat × String)) :
    ∀ (fuel : Nat) (rem : List Nat) (order : List Nat),
      topoAux edges fuel rem = some order →
      ∀ u vd msg, (u, vd, msg) ∈ edges → u ∈ rem → vd ∈ rem →
        [u, vd].Sublist order := by
  intro fuel
  induction fuel with
  | zero =>
    intro rem order h u vd msg he hu hv
    cases rem with
    | nil => simp at hu
    | cons a b =>
      rw [show topoAux edges 0 (a :: b) = none from rfl] at h
      exact absurd h (by simp)
  | succ fuel ih =>
    intro rem order h u vd msg he hu hv
    cases rem with
    | nil => simp at hu
    | cons r0 rrest =>
      cases hp : pickReady edges (r0 :: rrest) with
      | none =>
        rw [topoAux_cons_none edges fuel r0 rrest hp] at h
        exact absurd h (by simp)
      | some v =>
        rw [topoAux_cons_some edges fuel r0 rrest v hp] at h
        cases ht : topoAux edges fuel ((r0 :: rrest).erase v) with
        | none => rw [ht] at h; exact absurd h (by simp)
        | some rest' =>
          rw [ht] at h
          have h' : some (v :: rest') = some order := h
          injection h' with h'
          subst h'
          by_cases hveq : v = vd
          · exfalso
            subst hveq
            exact pickReady_noIncoming edges _ v hp (u, v, msg) he rfl hu
          · by_cases huq : v = u
            · subst huq
              have hvrem : vd ∈ (v :: rrest).erase v ∨ vd ∈ (r0 :: rrest).erase v := by
                exact Or.inr ((List.mem_erase_of_ne (fun hh => hveq hh.symm)).mpr hv)
              have hvrem' : vd ∈ (r0 :: rrest).erase v :=
                (List.mem_erase_of_ne (fun hh => hveq hh.symm)).mpr hv
              have hvord : vd ∈ rest' :=
                (topoAux_perm edges fuel _ rest' ht).mem_iff.mpr hvrem'
              exact List.Sublist.cons₂ v (List.singleton_sublist.mpr hvord)
            · have hu' : u ∈ (r0 :: rrest).erase v :=
                (List.mem_erase_of_ne (fun hh => huq hh.symm)).mpr hu
              have hv' : vd ∈ (r0 :: rrest).erase v :=
                (List.mem_erase_of_ne (fun hh => hveq hh.symm)).mpr hv
              exact List.Sublist.cons v (ih _ rest' ht u vd msg he hu' hv')

/-- When the ready scan fails on a nonempty remaining set, the graph has a
cycle: following incoming edges inside the finite remaining set must
revisit a vertex. -/
theorem exists_cycle_of_pick_none (edges : List (Nat × Nat × String))
    (rem : List Nat) (hne : rem ≠ []) (h : pickReady edges rem = none) :
    ∃ v, Relation.TransGen (EdgeStep edges) v v := by
  classical
  have hall := pickReady_none edges rem h
  have hstep : ∀ x : {y : Nat // y ∈ rem}, ∃ u : {y : Nat // y ∈ rem},
      EdgeStep edges u.1 x.1 := by
    rintro ⟨x, hx⟩
    obtain ⟨u, hu, he⟩ := hall x hx
    exact ⟨⟨u, hu⟩, he⟩
  choose f hf using hstep
  obtain ⟨v0, hv0⟩ : ∃ v0, v0 ∈ rem := by
    cases rem with
    | nil => exact absurd rfl hne
    | cons a b => exact ⟨a, List.mem_cons_self a b⟩
  set g : Nat → {y : Nat // y ∈ rem} := fun k => f^[k] ⟨v0, hv0⟩ with hg
  have hgs : ∀ k, EdgeStep edges (g (k + 1)).1 (g k).1 := by
    intro k
    have hit : g (k + 1) = f (g k) := Function.iterate_succ_apply' f k _
    rw [hit]
    exact hf (g k)
  have hchain : ∀ d k, Relation.TransGen (EdgeStep edges) (g (k + d + 1)).1 (g k).1 := by
    intro d
    induction d with
    | zero => intro k; exact Relation.TransGen.single (hgs k)
    | succ d ihd =>
      intro k
      exact Relation.TransGen.head (hgs (k + d + 1)) (ihd k)
  have hmaps : ∀ k ∈ Finset.range (rem.toFinset.card + 1),
      (g k).1 ∈ rem.toFinset := by
    intro k _
    exact List.mem_toFinset.mpr (g k).2
  have hcard : rem.toFinset.card < (Finset.range (rem.toFinset.card + 1)).card := by
    simp
  obtain ⟨i, hi, j, hj, hij, heq⟩ :=
    Finset.exists_ne_map_eq_of_card_lt_of_maps_to hcard hmaps
  rcases Nat.lt_or_ge i j with hlt | hge
  · obtain ⟨d, hd⟩ : ∃ d, j = i + d + 1 := ⟨j - i - 1, by omega⟩
    refine ⟨(g i).1, ?_⟩
    nth_rewrite 1 [heq]
    rw [hd] at heq ⊢
    exact hchain d i
  · have hlt : j < i := by omega
    obtain ⟨d, hd⟩ : ∃ d, i = j + d + 1 := ⟨i - j - 1, by omega⟩
    refine ⟨(g j).1, ?_⟩
    nth_rewrite 1 [heq.symm]
    rw [hd] at heq ⊢
    exact hchain d j

/-- On an acyclic edge set, `topoAux` succeeds whenever the fuel covers
the remaining vertices. -/
theorem topoAux_isSome_of_acyclic (edges : List (Nat × Nat × String))
    (hac : ∀ v, ¬ Relation.TransGen (EdgeStep edges) v v) :
    ∀ (fuel : Nat) (rem : List Nat), rem.length ≤ fuel →
      (topoAux edges fuel rem).isSome := by
  intro fuel
  induction fuel with
  | zero =>
    intro rem h
    cases rem with
    | nil => rw [show topoAux edges 0 [] = some [] from rfl]; rfl
    | cons a b => simp at h
  | succ fuel ih =>
    intro rem h
    cases rem with
    | nil => rw [topoAux_nil]; rfl
    | cons r0 rrest =>
      cases hp : pickReady edges (r0 :: rrest) with
      | none =>
        obtain ⟨v, hv⟩ := exists_cycle_of_pick_none edges (r0 :: rrest) (by simp) hp
        exact absurd hv (hac v)
      | some v =>
        have hv : v ∈ r0 :: rrest := pickReady_mem edges _ v hp
        have hlen : ((r0 :: rrest).erase v).length ≤ fuel := by
          rw [List.length_erase_of_mem hv]
          simp at h
          simp
          omega
        have hrec := ih ((r0 :: rrest).erase v) hlen
        rw [topoAux_cons_some edges fuel r0 rrest v hp]
        cases ht : topoAux edges fuel ((r0 :: rrest).erase v) with
        | none => rw [ht] at hrec; exact absurd hrec (by simp)
        | some order => rfl

/-- Pair sublists expose two strictly ordered positions. -/
theorem sublist_pair_getElem {u v : Nat} :
    ∀ l : List Nat, [u, v].Sublist l →
      ∃ i j : Nat, i < j ∧ l[i]? = some u ∧ l[j]? = some v := by
  intro l
  induction l with
  | nil => intro h; exact absurd h (by simp)
  | cons a t ih =>
    intro h
    cases h with
    | cons _ h' =>
      obtain ⟨i, j, hij, hi, hj⟩ := ih h'
      exact ⟨i + 1, j + 1, by omega, by simpa using hi, by simpa using hj⟩
    | cons₂ _ h' =>
      have hv : v ∈ t := List.singleton_sublist.mp h'
      obtain ⟨j, hj⟩ := List.mem_iff_getElem?.mp hv
      exact ⟨0, j + 1, by omega, by simp, by simpa using hj⟩

/-- Positions in a duplicate-free list are determined by their content. -/
theorem nodup_getElem_inj {l : List Nat} (hn : l.Nodup) :
    ∀ (i j : Nat) (a : Nat), l[i]? = some a → l[j]? = some a → i = j := by
  induction l with
  | nil => intro i j a h; simp at h
  | cons x t ih =>
    intro i j a hi hj
    rw [List.nodup_cons] at hn
    cases i with
    | zero =>
      cases j with
      | zero => rfl
      | succ j =>
        rw [List.getElem?_cons_zero] at hi
        injection hi with hi
        rw [List.getElem?_cons_succ] at hj
        subst hi
        exact absurd (List.getElem?_mem hj) hn.1
    | succ i =>
      cases j with
      | zero =>
        rw [List.getElem?_cons_zero] at hj
        injection hj with hj
        rw [List.getElem?_cons_succ] at hi
        subst hj
        exact absurd (List.getElem?_mem hi) hn.1
      | succ j =>
        have := ih hn.2 i j a (by simpa using hi) (by simpa using hj)
        omega

/-- In a duplicate-free list, a pair sublist forces the order of any
positions carrying its two entries. -/
theorem sublist_pair_lt {l : List Nat} (hn : l.Nodup) {u v : Nat}
    (hs : [u, v].Sublist l) :
    ∀ i j : Nat, l[i]? = some u → l[j]? = some v → i < j := by
  obtain ⟨i0, j0, hij, hi0, hj0⟩ := sublist_pair_getElem l hs
  intro i j hi hj
  have h1 : i = i0 := nodup_getElem_inj hn i i0 u hi hi0
  have h2 : j = j0 := nodup_getElem_inj hn j j0 v hj hj0
  omega

/-- Pairing a list of in-range indices with their nodes succeeds and keeps
the indices in order. -/
theorem planFromOrder_ok (cfg : CuConfig) :
    ∀ order : List Nat, (∀ i ∈ order, i < cfg.nodes.length) →
      ∃ plan, cfg.planFromOrder order = .ok plan ∧
        plan.map Prod.fst = order ∧
        ∀ p ∈ plan, cfg.get_node p.1 = some p.2 := by
  intro order
  induction order with
  | nil => intro _; exact ⟨[], rfl, rfl, by simp⟩
  | cons i rest ih =>
    intro hb
    have hi : i < cfg.nodes.length := hb i (List.mem_cons_self _ _)
    obtain ⟨plan, hok, hmap, hget⟩ := ih (fun k hk => hb k (List.mem_cons_of_mem _ hk))
    have hnode : cfg.get_node i = some cfg.nodes[i] := by
      unfold CuConfig.get_node
      exact List.getElem?_eq_getElem hi
    refine ⟨(i, cfg.nodes[i]) :: plan, ?_, ?_, ?_⟩
    · rw [show cfg.planFromOrder (i :: rest) =
          (match cfg.get_node i with
           | none => .error "get_node: unknown node"
           | some nd =>
             match cfg.planFromOrder rest with
             | .error err => .error err
             | .ok tl => .ok ((i, nd) :: tl)) from rfl, hnode, hok]
    · simp [hmap]
    · intro p hp
      rcases List.mem_cons.mp hp with rfl | hp'
      · exact hnode
      · exact hget p hp'

/-- An edge set whose edges all increase the vertex index admits no
cycle. -/
theorem acyclic_of_forward (cfg : CuConfig)
    (hf : ∀ e ∈ cfg.edges, e.1 < e.2.1) : cfg.Acyclic := by
  intro v hv
  have hmono : ∀ a b, Relation.TransGen cfg.HasEdge a b → a < b := by
    intro a b h
    induction h with
    | single h => obtain ⟨msg, hm⟩ := h; exact hf _ hm
    | tail _ hstep ih => obtain ⟨msg, hm⟩ := hstep; exact lt_trans ih (hf _ hm)
  exact absurd (hmono v v hv) (lt_irrefl v)

/-- C2: on every well-formed acyclic graph `compute_runtime_plan` returns
a plan pairing each node index with its node, covering every node exactly
once, and placing the source of every edge strictly before its target. -/
theorem c2_compute_plan_topological (cfg : CuConfig) (hwf : cfg.WellFormed)
    (hac : cfg.Acyclic) :
    ∃ plan, compute_runtime_plan cfg = .ok plan ∧
      (plan.map Prod.fst).Perm (List.range cfg.nodes.length) ∧
      (∀ p ∈ plan, cfg.get_node p.1 = some p.2) ∧
      ∀ e ∈ cfg.edges, ∀ i j : Nat, (plan.map Prod.fst)[i]? = some e.1 →
        (plan.map Prod.fst)[j]? = some e.2.1 → i < j := by
  have hsome := topoAux_isSome_of_acyclic cfg.edges hac cfg.nodes.length
      (List.range cfg.nodes.length) (by simp)
  obtain ⟨order, horder⟩ := Option.isSome_iff_exists.mp hsome
  have hperm : order.Perm (List.range cfg.nodes.length) :=
    topoAux_perm cfg.edges _ _ _ horder
  have hmemlt : ∀ i ∈ order, i < cfg.nodes.length := by
    intro i hi
    have := hperm.mem_iff.mp hi
    simpa using this
  obtain ⟨plan, hok, hmap, hget⟩ := planFromOrder_ok cfg order hmemlt
  refine ⟨plan, ?_, ?_, hget, ?_⟩
  · unfold compute_runtime_plan CuConfig.toposort
    rw [horder]
    exact hok
  · rw [hmap]
    exact hperm
  · intro e he i j hi hj
    obtain ⟨eu, evd, emsg⟩ := e
    rw [hmap] at hi hj
    have hnodup : order.Nodup := hperm.nodup_iff.mpr (List.nodup_range _)
    obtain ⟨hu, hv⟩ := hwf (eu, evd, emsg) he
    have hs : [eu, evd].Sublist order :=
      topoAux_respects cfg.edges _ _ _ horder eu evd emsg he
        (List.mem_range.mpr hu) (List.mem_range.mpr hv)
    exact sublist_pair_lt hnodup hs i j hi hj

/-- Witness for C2: the two-node chain is well formed and acyclic, and its
plan has all stated properties. -/
theorem c2_compute_plan_topological_witness :
    cfgChain.WellFormed ∧ cfgChain.Acyclic ∧
    ∃ plan, compute_runtime_plan cfgChain = .ok plan ∧
      (plan.map Prod.fst).Perm (List.range cfgChain.nodes.length) ∧
      (∀ p ∈ plan, cfgChain.get_node p.1 = some p.2) ∧
      ∀ e ∈ cfgChain.edges, ∀ i j : Nat, (plan.map Prod.fst)[i]? = some e.1 →
        (plan.map Prod.fst)[j]? = some e.2.1 → i < j :=
  ⟨by decide, acyclic_of_forward cfgChain (by decide),
   c2_compute_plan_topological cfgChain (by decide)
     (acyclic_of_forward cfgChain (by decide))⟩

/-- C3: on every well-formed cyclic graph, plan compilation fails with the
cycle-detection abort and never returns any (partial or arbitrary)
order. -/
theorem c3_cycle_detected (cfg : CuConfig) (hwf : cfg.WellFormed) (v : Nat)
    (hc : Relation.TransGen cfg.HasEdge v v) :
    compute_runtime_plan cfg = .error "Cycle detected in the graph" := by
  cases ht : cfg.toposort with
  | none =>
    unfold compute_runtime_plan
    rw [ht]
  | some order =>
    exfalso
    have ht' : topoAux cfg.edges cfg.nodes.length (List.range cfg.nodes.length) =
        some order := ht
    have hperm := topoAux_perm cfg.edges _ _ _ ht'
    have hnodup : order.Nodup := hperm.nodup_iff.mpr (List.nodup_range _)
    have hkey : ∀ a b, Relation.TransGen cfg.HasEdge a b →
        ∃ i j : Nat, i < j ∧ order[i]? = some a ∧ order[j]? = some b := by
      intro a b htrans
      induction htrans with
      | single h =>
        obtain ⟨msg, hmem⟩ := h
        obtain ⟨hu, hv⟩ := hwf _ hmem
        have hs := topoAux_respects cfg.edges _ _ _ ht' a _ msg hmem
          (List.mem_range.mpr hu) (List.mem_range.mpr hv)
        exact sublist_pair_getElem order hs
      | tail _ hstep ihp =>
        obtain ⟨i, j, hij, hi, hj⟩ := ihp
        obtain ⟨msg, hmem⟩ := hstep
        obtain ⟨hu, hv⟩ := hwf _ hmem
        have hs := topoAux_respects cfg.edges _ _ _ ht' _ _ msg hmem
          (List.mem_range.mpr hu) (List.mem_range.mpr hv)
        obtain ⟨j', k', hjk, hj', hk'⟩ := sublist_pair_getElem order hs
        have hjj : j = j' := nodup_getElem_inj hnodup j j' _ hj hj'
        exact ⟨i, k', by omega, hi, hk'⟩
    obtain ⟨i, j, hij, hi, hj⟩ := hkey v v hc
    have := nodup_getElem_inj hnodup i j v hi hj
    omega

/-- Witness for C3: the two-node cycle makes plan compilation fail with
the cycle abort. -/
theorem c3_cycle_detected_witness :
    cfgCyc.WellFormed ∧ Relation.TransGen cfgCyc.HasEdge 0 0 ∧
    compute_runtime_plan cfgCyc = .error "Cycle detected in the graph" := by
  have h01 : cfgCyc.HasEdge 0 1 := ⟨"msg", by decide⟩
  have h10 : cfgCyc.HasEdge 1 0 := ⟨"msg", by decide⟩
  have hcyc : Relation.TransGen cfgCyc.HasEdge 0 0 :=
    Relation.TransGen.tail (Relation.TransGen.single h01) h10
  exact ⟨by decide, hcyc, c3_cycle_detected cfgCyc (by decide) 0 hcyc⟩

end Copper
